import Mathlib

/-!
Verification of the NuBLS core (rust-nubls) against its specification.

The embedding below translates `src/rust-nubls/src/utils.rs`, `keys.rs` and
`bls.rs` into Lean.  Modelling decisions:

* The BLS12-381 scalar field `Fr` is modelled as an arbitrary field `F`
  (with decidable equality).  The concrete instance is `ZMod r_bls` with
  `r_bls` the (prime) subgroup order, so every theorem below specialises to
  the real scalar field; small prime fields are used to evaluate witnesses.
* The groups `G1`, `G2`, `G_T` are cyclic of prime order `r`, so a point is
  represented by its discrete logarithm with respect to the generator
  (`[e]·gen ↦ e`).  Group addition is field addition of exponents, scalar
  multiplication is field multiplication, and the pairing
  `e([a]·G1_gen, [b]·G2_gen) = e(G1_gen, G2_gen)^(a·b)` is represented by the
  exponent product `a * b`; since `G_T` is cyclic of order `r` generated by
  `e(G1_gen, G2_gen)`, equality of pairing values is exactly equality of
  these exponents, so the representation is faithful.
* Randomness (`getrandom` plus `Scalar::from_bytes_wide`) is made explicit:
  each operation that draws randomness takes the drawn scalars as
  parameters.  An entropy failure aborts before any draw is produced and is
  outside the model.
* `SHA-512` over the uncompressed Diffie-Hellman point followed by wide
  reduction to `Fr` is modelled as an explicit function parameter
  `G1 F → F` (the uncompressed encoding is injective, so a function of the
  point is faithful).
* Rust panics (`unwrap`, out-of-bounds writes, `panic!`) are modelled by
  `Option`: a function returns `none` exactly when the Rust code panics.
-/

set_option maxHeartbeats 1000000
set_option linter.unusedSectionVars false

namespace NuBLS

/-- Discrete-log (exponent) representation of the group `G_1` of BLS12-381:
the point `[e]·G1_gen` is represented by `⟨e⟩`. -/
structure G1 (F : Type) where
  exp : F
deriving DecidableEq

/-- Discrete-log (exponent) representation of the group `G_2` of BLS12-381. -/
structure G2 (F : Type) where
  exp : F
deriving DecidableEq

/-- Discrete-log (exponent) representation of the target group `G_T`,
with respect to the generator `e(G1_gen, G2_gen)`. -/
structure GT (F : Type) where
  exp : F
deriving DecidableEq

variable {F : Type} [Field F] [DecidableEq F]

/-- The generator of `G_1` (`G1Affine::generator()`), exponent `1`. -/
def G1.generator : G1 F := ⟨1⟩

/-- The generator of `G_2` (`G2Affine::generator()`), exponent `1`. -/
def G2.generator : G2 F := ⟨1⟩

/-- Scalar multiplication on `G_1` (`point * scalar` in the bls12_381 API). -/
def G1.smul (p : G1 F) (k : F) : G1 F := ⟨p.exp * k⟩

/-- Scalar multiplication on `G_2`. -/
def G2.smul (p : G2 F) (k : F) : G2 F := ⟨p.exp * k⟩

/-- Group addition on `G_2` (`G2Projective` addition). -/
def G2.add (p q : G2 F) : G2 F := ⟨p.exp + q.exp⟩

/-- The identity of `G_2` (`G2Projective::identity()`). -/
def G2.identity : G2 F := ⟨0⟩

/-- The bilinear pairing `e : G_1 × G_2 → G_T` of bls12_381, in exponent
representation: `e([a]·G1_gen, [b]·G2_gen)` has exponent `a * b`. -/
def pairing (p : G1 F) (q : G2 F) : GT F := ⟨p.exp * q.exp⟩

/-- Embeds `poly_eval` from `src/rust-nubls/src/utils.rs`: Horner evaluation
of the polynomial with coefficient list `poly_coeffs` (constant term first)
at `x`.  The Rust code panics on an empty coefficient list; the model
returns `none` there. -/
def poly_eval (poly_coeffs : List F) (x : F) : Option F :=
  match poly_coeffs.getLast? with
  | none => none
  | some leading_coeff =>
      some (poly_coeffs.dropLast.foldr (fun coeff result => result * x + coeff) leading_coeff)

/-- Embeds `lambda_coeff` from `src/rust-nubls/src/utils.rs`: the Lagrange
basis coefficient of `fragment_index` against `fragment_indices`.  The
indices equal to `fragment_index` are filtered out first; each remaining
difference is non-zero, so the `invert().unwrap()` of the Rust code never
panics and the function is total. -/
def lambda_coeff (fragment_index : F) (fragment_indices : List F) : F :=
  let indices := fragment_indices.filter (fun index => index ≠ fragment_index)
  match indices with
  | [] => 1
  | x_0 :: xs =>
      xs.foldl (fun result x_m => result * (x_m * (x_m - fragment_index)⁻¹))
        (x_0 * (x_0 - fragment_index)⁻¹)

/-- Embeds `PrivateKey` from `src/rust-nubls/src/keys.rs`: a scalar together
with an optional Shamir fragment identifier. -/
structure PrivateKey (F : Type) where
  scalar : F
  id : Option F
deriving DecidableEq

/-- Embeds `PublicKey` from `src/rust-nubls/src/keys.rs`: a `G_1` point. -/
structure PublicKey (F : Type) where
  point : G1 F
deriving DecidableEq

/-- Embeds `Signature` from `src/rust-nubls/src/bls.rs`: a `G_2` point
together with an optional fragment identifier. -/
structure Signature (F : Type) where
  point : G2 F
  id : Option F
deriving DecidableEq

/-- Embeds the `VerificationResult` enum from `src/rust-nubls/src/bls.rs`. -/
inductive VerificationResult where
  | Valid
  | Invalid
deriving DecidableEq

/-- Embeds `impl From<bool> for VerificationResult` (named `ofBool` because
`from` is a reserved word in Lean). -/
def VerificationResult.ofBool (result : Bool) : VerificationResult :=
  if result then VerificationResult.Valid else VerificationResult.Invalid

/-- Embeds `PrivateKey::random`: the 64 entropy bytes and the wide modular
reduction `Scalar::from_bytes_wide` are modelled by the already-reduced
drawn scalar, passed as the parameter `rand_scalar`.  The fragment
identifier of a freshly generated key is absent. -/
def PrivateKey.random (rand_scalar : F) : PrivateKey F :=
  ⟨rand_scalar, none⟩

/-- Embeds `PrivateKey::public_key`: `[s]·G1_gen`. -/
def PrivateKey.public_key (sk : PrivateKey F) : PublicKey F :=
  ⟨G1.smul G1.generator sk.scalar⟩

/-- Embeds `Signature::new`: `σ = [s]·M`, inheriting the signing key's
fragment identifier. -/
def Signature.new (private_key : PrivateKey F) (message_element : G2 F) : Signature F :=
  ⟨G2.smul message_element private_key.scalar, private_key.id⟩

/-- Embeds `PrivateKey::sign`, which delegates to `Signature::new`. -/
def PrivateKey.sign (sk : PrivateKey F) (message_element : G2 F) : Signature F :=
  Signature.new sk message_element

/-- Embeds `Signature::verify`: compares the pairings
`e(pk, M)` and `e(G1_gen, σ)`. -/
def Signature.verify (sig : Signature F) (public_key : PublicKey F)
    (message_element : G2 F) : VerificationResult :=
  let c_1 := pairing public_key.point message_element
  let c_2 := pairing G1.generator sig.point
  VerificationResult.ofBool (decide (c_1 = c_2))

/-- Embeds `PublicKey::verify`, which delegates to `Signature::verify`. -/
def PublicKey.verify (pk : PublicKey F) (message_element : G2 F)
    (signature : Signature F) : VerificationResult :=
  Signature.verify signature pk message_element

/-- Embeds `ThresholdKey::split` for `PrivateKey`
(`src/rust-nubls/src/keys.rs`).  The `m - 1` random polynomial coefficients
are `coeff_rand 0, …, coeff_rand (m-2)` and the `n` random fragment indices
are `index_rand 0, …, index_rand (n-1)`.  The coefficient list is a cons
cell (the secret is its head), so `poly_eval` never returns `none` and the
`getD 0` default is never taken. -/
def PrivateKey.split (sk : PrivateKey F) (m n : ℕ) (coeff_rand index_rand : ℕ → F) :
    List (PrivateKey F) :=
  let coeffs : List F := sk.scalar :: (List.range (m - 1)).map coeff_rand
  (List.range n).map (fun k =>
    let fragment_index := index_rand k
    PrivateKey.mk ((poly_eval coeffs fragment_index).getD 0) (some fragment_index))

/-- Gathers the optional fragment identifiers of a fragment list, in order.
Returns `none` exactly when one of them is absent, which is where the
`fragments[i].1.unwrap()` loop of `recover` and `assemble` panics. -/
def collect_ids : List (Option F) → Option (List F)
  | [] => some []
  | some i :: rest => (collect_ids rest).map (fun is => i :: is)
  | none :: _ => none

/-- Embeds `ThresholdKey::recover` for `PrivateKey`
(`src/rust-nubls/src/keys.rs`).  The Rust code first copies each fragment's
identifier (an `unwrap`, panicking when absent) into a 256-entry buffer
(panicking past index 255 — hence the `length ≤ 256` guard), then sums
`λ_k · y_k` over the fragments, with `λ_k` the Lagrange coefficient of the
`k`-th identifier against the identifier list.  The zip pairs each fragment
scalar with its (already unwrapped) identifier. -/
def PrivateKey.recover (fragments : List (PrivateKey F)) : Option (PrivateKey F) :=
  if fragments.length ≤ 256 then
    match collect_ids (fragments.map PrivateKey.id) with
    | none => none
    | some fragment_indices =>
        some ⟨(fragment_indices.zip (fragments.map PrivateKey.scalar)).foldl
          (fun result fragment =>
            result + lambda_coeff fragment.1 fragment_indices * fragment.2) 0, none⟩
  else none

/-- Embeds `ThresholdKey::is_fragment` for `PrivateKey`. -/
def PrivateKey.is_fragment (sk : PrivateKey F) : Bool :=
  match sk.id with
  | some _ => true
  | none => false

/-- Embeds `ThresholdSignature::assemble` for `Signature`
(`src/rust-nubls/src/bls.rs`): the `G_2` analogue of `recover`, combining
the fragment signature points with the Lagrange coefficients of their
identifiers, starting from the `G_2` identity. -/
def Signature.assemble (fragments : List (Signature F)) : Option (Signature F) :=
  if fragments.length ≤ 256 then
    match collect_ids (fragments.map Signature.id) with
    | none => none
    | some fragment_indices =>
        some ⟨(fragment_indices.zip (fragments.map Signature.point)).foldl
          (fun result fragment =>
            G2.add result (G2.smul fragment.2 (lambda_coeff fragment.1 fragment_indices)))
          G2.identity, none⟩
  else none

/-- Embeds `ThresholdSignature::is_fragment` for `Signature`. -/
def Signature.is_fragment (sig : Signature F) : Bool :=
  match sig.id with
  | some _ => true
  | none => false

/-- Embeds `PRSKey::designated_key` (`src/rust-nubls/src/keys.rs`):
`φ = H(DH)` with `DH = [self]·alice_pubkey` and `H` the SHA-512-plus-wide-
reduction map, passed as the `hash_to_scalar` parameter.  The result is an
ordinary (non-fragment) key. -/
def PrivateKey.designated_key (sk : PrivateKey F) (alice_pubkey : PublicKey F)
    (hash_to_scalar : G1 F → F) : PrivateKey F :=
  let dh := G1.smul alice_pubkey.point sk.scalar
  ⟨hash_to_scalar dh, none⟩

/-- Embeds `PRSKey::resigning_key` (`src/rust-nubls/src/keys.rs`):
`self.scalar · φ_B⁻¹` with `φ_B` the designated key scalar.  The Rust
`invert().unwrap()` panics exactly when `φ_B = 0`, modelled by `none`. -/
def PrivateKey.resigning_key (sk : PrivateKey F) (bob_pubkey : PublicKey F)
    (hash_to_scalar : G1 F → F) : Option (PrivateKey F) :=
  let phi_b := (sk.designated_key bob_pubkey hash_to_scalar).scalar
  if phi_b = 0 then none
  else some ⟨sk.scalar * phi_b⁻¹, none⟩

/-- Embeds `PRSKey::resign` (`src/rust-nubls/src/keys.rs`):
`Signature::new(self, signature.point)`. -/
def PrivateKey.resign (rk : PrivateKey F) (signature : Signature F) : Signature F :=
  Signature.new rk signature.point

/-- The order of the BLS12-381 `G_1`/`G_2` subgroups (a prime). -/
def r_bls : ℕ :=
  52435875175126190479447740508185965837690552500527637822603658699938581184513

/-- The scalar field `Fr` of BLS12-381.  Since `r_bls` is prime, `Fr` is a
field with decidable equality, so every theorem below stated over an
arbitrary field applies to it. -/
def Fr : Type := ZMod r_bls

/-! ### Helper lemmas about the embedded operations -/

/-- Standard (textbook) evaluation of a coefficient list, constant term
first; used to relate Horner evaluation to `Polynomial.eval`. -/
def evalList (coeffs : List F) (x : F) : F :=
  coeffs.foldr (fun a acc => a + x * acc) 0

theorem evalList_nil (x : F) : evalList ([] : List F) x = 0 := rfl

theorem evalList_cons (a : F) (t : List F) (x : F) :
    evalList (a :: t) x = a + x * evalList t x := rfl

theorem evalList_at_zero (a : F) (t : List F) : evalList (a :: t) 0 = a := by
  simp [evalList_cons]

/-- Horner evaluation agrees with textbook evaluation on non-empty
coefficient lists. -/
theorem poly_eval_eq_evalList (x : F) :
    ∀ cs : List F, cs ≠ [] → poly_eval cs x = some (evalList cs x)
  | [], h => absurd rfl h
  | [a], _ => by
      simp [poly_eval, evalList]
  | a :: b :: t, _ => by
      have ih := poly_eval_eq_evalList x (b :: t) (by simp)
      simp only [poly_eval, List.getLast?_cons_cons, List.dropLast_cons₂,
        List.foldr_cons] at ih ⊢
      rcases hlast : (b :: t).getLast? with _ | leading
      · simp [hlast] at ih
      · simp only [hlast, Option.some.injEq] at ih ⊢
        rw [ih]
        simp only [evalList_cons]
        ring

theorem foldl_mul_eq {α : Type} (g : α → F) :
    ∀ (l : List α) (a : F), l.foldl (fun result y => result * g y) a = a * (l.map g).prod
  | [], a => by simp
  | y :: t, a => by
      simp only [List.foldl_cons, List.map_cons, List.prod_cons]
      rw [foldl_mul_eq g t (a * g y)]
      ring

theorem foldl_add_eq {α : Type} (g : α → F) :
    ∀ (l : List α) (a : F), l.foldl (fun result y => result + g y) a = a + (l.map g).sum
  | [], a => by simp
  | y :: t, a => by
      simp only [List.foldl_cons, List.map_cons, List.sum_cons]
      rw [foldl_add_eq g t (a + g y)]
      ring

theorem foldl_g2_add {α : Type} (g : α → G2 F) :
    ∀ (l : List α) (a : G2 F),
      (l.foldl (fun result y => G2.add result (g y)) a).exp
        = a.exp + (l.map (fun y => (g y).exp)).sum
  | [], a => by simp
  | y :: t, a => by
      simp only [List.foldl_cons, List.map_cons, List.sum_cons]
      rw [foldl_g2_add g t (G2.add a (g y))]
      simp [G2.add]
      ring

/-- `lambda_coeff` as a product over the filtered index list. -/
theorem lambda_coeff_eq_prod (i : F) (l : List F) :
    lambda_coeff i l
      = ((l.filter (fun j => j ≠ i)).map (fun j => j * (j - i)⁻¹)).prod := by
  unfold lambda_coeff
  rcases h : l.filter (fun j => j ≠ i) with _ | ⟨x_0, xs⟩
  · simp
  · simp only [List.map_cons, List.prod_cons]
    rw [foldl_mul_eq]

theorem collect_ids_map_some :
    ∀ l : List F, collect_ids (l.map some) = some l
  | [] => rfl
  | a :: t => by simp [collect_ids, collect_ids_map_some t]

theorem collect_ids_isSome_iff :
    ∀ l : List (Option F), (collect_ids l).isSome ↔ ∀ o ∈ l, o.isSome
  | [] => by simp [collect_ids]
  | some a :: t => by
      simp [collect_ids, collect_ids_isSome_iff t]
  | none :: t => by
      simp [collect_ids]

theorem collect_ids_eq_some :
    ∀ {l : List (Option F)} {ids : List F}, collect_ids l = some ids → l = ids.map some
  | [], ids, h => by
      simp only [collect_ids, Option.some.injEq] at h
      subst h; rfl
  | some a :: t, ids, h => by
      simp only [collect_ids, Option.map_eq_some'] at h
      obtain ⟨is, hts, his⟩ := h
      subst his
      simp [collect_ids_eq_some hts]
  | none :: t, ids, h => by
      simp [collect_ids] at h

/-! ### Lagrange interpolation for the threshold claims -/

/-- The polynomial with coefficient list `cs`, constant term first.  Proof
infrastructure only (Mathlib polynomials carry no executable code). -/
noncomputable def toPoly : List F → Polynomial F
  | [] => 0
  | a :: t => Polynomial.C a + Polynomial.X * toPoly t

theorem toPoly_eval (x : F) : ∀ cs : List F, (toPoly cs).eval x = evalList cs x
  | [] => by simp [toPoly, evalList]
  | a :: t => by
      simp [toPoly, toPoly_eval x t, evalList_cons]

theorem toPoly_degree_lt : ∀ cs : List F, (toPoly cs).degree < (cs.length : ℕ)
  | [] => by
      simp [toPoly]
  | a :: t => by
      have ih := toPoly_degree_lt t
      have h1 : (Polynomial.C a).degree < (((a :: t).length : ℕ) : WithBot ℕ) :=
        lt_of_le_of_lt Polynomial.degree_C_le (by exact_mod_cast Nat.succ_pos t.length)
      have h2 : (Polynomial.X * toPoly t).degree < (((a :: t).length : ℕ) : WithBot ℕ) := by
        calc (Polynomial.X * toPoly t).degree = 1 + (toPoly t).degree := by
              rw [Polynomial.degree_mul, Polynomial.degree_X]
          _ < 1 + ((t.length : ℕ) : WithBot ℕ) :=
              WithBot.add_lt_add_left (by simp) ih
          _ = (((a :: t).length : ℕ) : WithBot ℕ) := by
              rw [List.length_cons, Nat.cast_add, Nat.cast_one, add_comm]
      exact lt_of_le_of_lt (Polynomial.degree_add_le _ _) (max_lt h1 h2)

theorem basisDivisor_eval_zero (x y : F) :
    (Lagrange.basisDivisor x y).eval 0 = y * (y - x)⁻¹ := by
  have h : (y - x)⁻¹ = -(x - y)⁻¹ := by rw [← neg_sub, inv_neg]
  simp only [Lagrange.basisDivisor, Polynomial.eval_mul, Polynomial.eval_C,
    Polynomial.eval_sub, Polynomial.eval_X, h]
  ring

theorem basis_eval_zero (ids : List F) (hnd : ids.Nodup) (i : F) :
    (Lagrange.basis ids.toFinset (fun x => x) i).eval 0 = lambda_coeff i ids := by
  rw [lambda_coeff_eq_prod]
  unfold Lagrange.basis
  rw [Polynomial.eval_prod]
  have herase : (ids.filter (fun j => j ≠ i)).toFinset = ids.toFinset.erase i := by
    ext a
    simp [List.mem_filter, and_comm]
  rw [← herase, List.prod_toFinset _ (hnd.filter _)]
  simp only [basisDivisor_eval_zero]

/-- Lagrange interpolation at `0`: summing each node's value weighted by its
`lambda_coeff` against distinct nodes recovers the constant term, for any
coefficient list no longer than the node list. -/
theorem lagrange_sum (cs ids : List F) (hnd : ids.Nodup) (hlen : cs.length ≤ ids.length) :
    (ids.map (fun x => lambda_coeff x ids * evalList cs x)).sum = evalList cs 0 := by
  classical
  have hinj : Set.InjOn (fun x => x) (ids.toFinset : Set F) := fun a _ b _ h => h
  have hdeg : (toPoly cs).degree < (ids.toFinset.card : ℕ) := by
    rw [List.toFinset_card_of_nodup hnd]
    exact lt_of_lt_of_le (toPoly_degree_lt cs) (by exact_mod_cast hlen)
  have hinterp := Lagrange.eq_interpolate hinj hdeg
  have h0 := congrArg (Polynomial.eval 0) hinterp
  rw [Lagrange.interpolate_apply] at h0
  rw [Polynomial.eval_finset_sum] at h0
  simp only [Polynomial.eval_mul, Polynomial.eval_C, basis_eval_zero ids hnd,
    toPoly_eval] at h0
  calc (ids.map (fun x => lambda_coeff x ids * evalList cs x)).sum
      = (ids.map (fun x => evalList cs x * lambda_coeff x ids)).sum := by
        simp only [mul_comm]
    _ = ∑ i ∈ ids.toFinset, evalList cs i * lambda_coeff i ids :=
        (List.sum_toFinset _ hnd).symm
    _ = evalList cs 0 := h0.symm

theorem zip_map_self {α β : Type} (g : α → β) :
    ∀ l : List α, l.zip (l.map g) = l.map (fun x => (x, g x))
  | [] => rfl
  | a :: t => by simp [zip_map_self g t]

/-- Every fragment produced by `split` is the polynomial's value at its
(random) fragment index, tagged with that index. -/
theorem split_mem {sk : PrivateKey F} {m n : ℕ} {cr ir : ℕ → F} {f : PrivateKey F}
    (hf : f ∈ PrivateKey.split sk m n cr ir) :
    ∃ x : F, f = ⟨evalList (sk.scalar :: (List.range (m - 1)).map cr) x, some x⟩ := by
  unfold PrivateKey.split at hf
  simp only [List.mem_map, List.mem_range] at hf
  obtain ⟨k, -, hk⟩ := hf
  refine ⟨ir k, ?_⟩
  rw [← hk]
  have h := poly_eval_eq_evalList (ir k) (sk.scalar :: (List.range (m - 1)).map cr) (by simp)
  simp [h]

/-- C1: for every private key `sk`, every `(m, n)` with `1 ≤ m ≤ n ≤ 256`,
and any `m`-element subset of the fragment keys returned by
`split sk m n` whose share identifiers are pairwise distinct, `recover`
applied to that subset returns a private key whose scalar equals `sk`'s
scalar and whose share identifier is absent. -/
theorem threshold_recover_correct (sk : PrivateKey F) (m n : ℕ)
    (coeff_rand index_rand : ℕ → F)
    (hm : 1 ≤ m) (hmn : m ≤ n) (hn : n ≤ 256)
    (sub : List (PrivateKey F))
    (hsub : sub.Sublist (PrivateKey.split sk m n coeff_rand index_rand))
    (hlen : sub.length = m)
    (hnd : (sub.map PrivateKey.id).Nodup) :
    PrivateKey.recover sub = some ⟨sk.scalar, none⟩ := by
  set coeffs : List F := sk.scalar :: (List.range (m - 1)).map coeff_rand with hcoeffs
  have hmem : ∀ f ∈ sub, ∃ x : F, f = ⟨evalList coeffs x, some x⟩ := by
    intro f hf
    exact split_mem (hsub.subset hf)
  set ids : List F := sub.map (fun f => f.id.getD 0) with hids
  have hid_eq : sub.map PrivateKey.id = ids.map some := by
    rw [hids, List.map_map]
    apply List.map_congr_left
    intro f hf
    obtain ⟨x, rfl⟩ := hmem f hf
    rfl
  have hscalar_eq : sub.map PrivateKey.scalar = ids.map (fun x => evalList coeffs x) := by
    rw [hids, List.map_map]
    apply List.map_congr_left
    intro f hf
    obtain ⟨x, rfl⟩ := hmem f hf
    rfl
  have hnd_ids : ids.Nodup := by
    rw [hid_eq] at hnd
    exact hnd.of_map
  have hlen_ids : ids.length = m := by
    rw [hids, List.length_map, hlen]
  have hlen_coeffs : coeffs.length = m := by
    rw [hcoeffs]
    simp [Nat.sub_add_cancel hm]
  unfold PrivateKey.recover
  rw [if_pos (by rw [hlen]; exact le_trans hmn hn), hid_eq, collect_ids_map_some]
  have hzip : ids.zip (sub.map PrivateKey.scalar)
      = ids.map (fun x => (x, evalList coeffs x)) := by
    rw [hscalar_eq, zip_map_self]
  dsimp only
  rw [hzip, foldl_add_eq, List.map_map]
  have hsum : (ids.map (fun x => lambda_coeff x ids * evalList coeffs x)).sum
      = evalList coeffs 0 :=
    lagrange_sum coeffs ids hnd_ids (by rw [hlen_coeffs, hlen_ids])
  simp only [Function.comp_def]
  rw [hsum, evalList_at_zero, zero_add]

theorem G2.ext_exp {p q : G2 F} (h : p.exp = q.exp) : p = q := by
  cases p; cases q; cases h; rfl

/-- C2: an `m`-element subset of `split sk m n` with pairwise-distinct
identifiers, each signing the identical message point `M`, assembles to
exactly the signature the unsplit (ordinary) key would have produced. -/
theorem threshold_assemble_correct (s : F) (m n : ℕ)
    (coeff_rand index_rand : ℕ → F) (M : G2 F)
    (hm : 1 ≤ m) (hmn : m ≤ n) (hn : n ≤ 256)
    (sub : List (PrivateKey F))
    (hsub : sub.Sublist (PrivateKey.split ⟨s, none⟩ m n coeff_rand index_rand))
    (hlen : sub.length = m)
    (hnd : (sub.map PrivateKey.id).Nodup) :
    Signature.assemble (sub.map (fun f => f.sign M))
      = some (PrivateKey.sign ⟨s, none⟩ M) := by
  set coeffs : List F := s :: (List.range (m - 1)).map coeff_rand with hcoeffs
  have hmem : ∀ f ∈ sub, ∃ x : F, f = ⟨evalList coeffs x, some x⟩ := by
    intro f hf
    exact split_mem (hsub.subset hf)
  set ids : List F := sub.map (fun f => f.id.getD 0) with hids
  set sigs : List (Signature F) := sub.map (fun f => f.sign M) with hsigs
  have hsig_id : sigs.map Signature.id = ids.map some := by
    rw [hsigs, hids, List.map_map, List.map_map]
    apply List.map_congr_left
    intro f hf
    obtain ⟨x, rfl⟩ := hmem f hf
    rfl
  have hsig_pt : sigs.map Signature.point
      = ids.map (fun x => G2.smul M (evalList coeffs x)) := by
    rw [hsigs, hids, List.map_map, List.map_map]
    apply List.map_congr_left
    intro f hf
    obtain ⟨x, rfl⟩ := hmem f hf
    rfl
  have hnd_ids : ids.Nodup := by
    rw [hids]
    have : (sub.map PrivateKey.id).Nodup := hnd
    rw [show sub.map PrivateKey.id = (sub.map (fun f => f.id.getD 0)).map some by
      rw [List.map_map]
      apply List.map_congr_left
      intro f hf
      obtain ⟨x, rfl⟩ := hmem f hf
      rfl] at this
    exact this.of_map
  have hlen_ids : ids.length = m := by
    rw [hids, List.length_map, hlen]
  have hlen_coeffs : coeffs.length = m := by
    rw [hcoeffs]
    simp [Nat.sub_add_cancel hm]
  unfold Signature.assemble
  rw [if_pos (by rw [hsigs, List.length_map, hlen]; exact le_trans hmn hn),
    hsig_id, collect_ids_map_some]
  dsimp only
  rw [hsig_pt, zip_map_self]
  refine congrArg some ?_
  unfold PrivateKey.sign Signature.new
  refine congrArg (fun pt => Signature.mk pt none) ?_
  apply G2.ext_exp
  rw [foldl_g2_add, List.map_map]
  simp only [Function.comp_def, G2.smul, G2.identity]
  have hsum : (ids.map (fun x => lambda_coeff x ids * evalList coeffs x)).sum
      = evalList coeffs 0 :=
    lagrange_sum coeffs ids hnd_ids (by rw [hlen_coeffs, hlen_ids])
  calc 0 + (ids.map (fun x => M.exp * evalList coeffs x * lambda_coeff x ids)).sum
      = (ids.map (fun x => M.exp * (lambda_coeff x ids * evalList coeffs x))).sum := by
        rw [zero_add]
        apply congrArg List.sum
        apply List.map_congr_left
        intro x _
        ring
    _ = M.exp * (ids.map (fun x => lambda_coeff x ids * evalList coeffs x)).sum :=
        List.sum_map_mul_left ids _ M.exp
    _ = M.exp * s := by rw [hsum, evalList_at_zero]

instance fact_prime_five : Fact (Nat.Prime 5) := ⟨by norm_num⟩

/-- Witness for C1: a concrete 2-of-2 split over `ZMod 5` recovers the
original scalar with no identifier. -/
theorem threshold_recover_correct_witness :
    PrivateKey.recover
        (PrivateKey.split (⟨3, none⟩ : PrivateKey (ZMod 5)) 2 2 (fun _ => 1)
          (fun k => (k : ZMod 5) + 1))
      = some ⟨3, none⟩ :=
  threshold_recover_correct ⟨3, none⟩ 2 2 (fun _ => 1) (fun k => (k : ZMod 5) + 1)
    (by decide) (by decide) (by decide) _ (List.Sublist.refl _) (by decide) (by decide)

/-- Witness for C2: the fragment signatures of a concrete 2-of-2 split over
`ZMod 5` assemble to the unsplit key's signature. -/
theorem threshold_assemble_correct_witness :
    Signature.assemble
        ((PrivateKey.split (⟨3, none⟩ : PrivateKey (ZMod 5)) 2 2 (fun _ => 1)
            (fun k => (k : ZMod 5) + 1)).map (fun f => f.sign ⟨2⟩))
      = some (PrivateKey.sign (⟨3, none⟩ : PrivateKey (ZMod 5)) ⟨2⟩) :=
  threshold_assemble_correct 3 2 2 (fun _ => 1) (fun k => (k : ZMod 5) + 1) ⟨2⟩
    (by decide) (by decide) (by decide) _ (List.Sublist.refl _) (by decide) (by decide)

/-- C3: `verify` returns `Valid` exactly when the pairing equality
`e(pk, M) = e(G1_gen, σ)` holds and `Invalid` otherwise; consequently a
signature produced by any private key verifies under that key's public
key. -/
theorem verify_pairing_correct :
    (∀ (pk : PublicKey F) (M : G2 F) (sig : Signature F),
      pk.verify M sig
        = (if pairing pk.point M = pairing G1.generator sig.point
            then VerificationResult.Valid else VerificationResult.Invalid)) ∧
    (∀ (sk : PrivateKey F) (M : G2 F),
      (sk.public_key).verify M (sk.sign M) = VerificationResult.Valid) := by
  constructor
  · intro pk M sig
    unfold PublicKey.verify Signature.verify VerificationResult.ofBool
    by_cases hc : pairing pk.point M = pairing G1.generator sig.point
    · simp [hc]
    · simp [hc]
  · intro sk M
    unfold PublicKey.verify Signature.verify VerificationResult.ofBool
      PrivateKey.public_key PrivateKey.sign Signature.new pairing G1.smul G2.smul
      G1.generator
    have h : (1 : F) * sk.scalar * M.exp = 1 * (M.exp * sk.scalar) := by ring
    simp [h, mul_comm]

/-- C4: re-signing Bob's designated-key signature with Alice's re-signing
key yields exactly Alice's own signature on the message (given the
designated-key scalar is non-zero, i.e. `resigning_key` succeeds). -/
theorem prs_resign_correct (a b : F) (M : G2 F) (hash_to_scalar : G1 F → F)
    (rk : PrivateKey F)
    (hrk : PrivateKey.resigning_key ⟨a, none⟩
        (PrivateKey.public_key ⟨b, none⟩) hash_to_scalar = some rk) :
    rk.resign
        ((PrivateKey.designated_key ⟨b, none⟩ (PrivateKey.public_key ⟨a, none⟩)
            hash_to_scalar).sign M)
      = PrivateKey.sign ⟨a, none⟩ M := by
  have hpt : G1.smul (PrivateKey.public_key (⟨b, none⟩ : PrivateKey F)).point a
      = G1.smul (PrivateKey.public_key (⟨a, none⟩ : PrivateKey F)).point b := by
    unfold PrivateKey.public_key G1.smul G1.generator
    exact congrArg G1.mk (by ring)
  unfold PrivateKey.resigning_key PrivateKey.designated_key at hrk
  dsimp only at hrk
  rw [hpt] at hrk
  set phi := hash_to_scalar
    (G1.smul (PrivateKey.public_key (⟨a, none⟩ : PrivateKey F)).point b) with hphi
  by_cases hzero : phi = 0
  · rw [if_pos hzero] at hrk
    exact absurd hrk (by simp)
  · rw [if_neg hzero] at hrk
    have hrk' : rk = ⟨a * phi⁻¹, none⟩ := (Option.some.injEq _ _).mp hrk.symm
    subst hrk'
    unfold PrivateKey.resign PrivateKey.designated_key PrivateKey.sign Signature.new
      G2.smul
    dsimp only
    rw [← hphi]
    refine congrArg (fun e => Signature.mk (G2.mk e) none) ?_
    field_simp
    ring

/-- C7: designated-key derivation is symmetric — Alice against Bob's public
key and Bob against Alice's public key derive the same (ordinary) key. -/
theorem designated_key_symmetric (sk_a sk_b : PrivateKey F)
    (hash_to_scalar : G1 F → F) :
    PrivateKey.designated_key sk_a (PrivateKey.public_key sk_b) hash_to_scalar
      = PrivateKey.designated_key sk_b (PrivateKey.public_key sk_a) hash_to_scalar := by
  unfold PrivateKey.designated_key PrivateKey.public_key G1.smul G1.generator
  exact congrArg (fun dh => PrivateKey.mk (hash_to_scalar dh) none)
    (congrArg G1.mk (by ring))

/-- Witness for C4 at `a = 2`, `b = 3` over `ZMod 5`, with the hash modelled
as the exponent map. -/
theorem prs_resign_correct_witness :
    PrivateKey.resign (⟨(2 : ZMod 5), none⟩ : PrivateKey (ZMod 5))
        ((PrivateKey.designated_key ⟨3, none⟩
            (PrivateKey.public_key (⟨2, none⟩ : PrivateKey (ZMod 5)))
            (fun P => P.exp)).sign ⟨1⟩)
      = PrivateKey.sign (⟨(2 : ZMod 5), none⟩ : PrivateKey (ZMod 5)) ⟨1⟩ :=
  prs_resign_correct 2 3 ⟨1⟩ (fun P => P.exp) ⟨2, none⟩ (by
    have h6 : ((1 : ZMod 5) * 3 * 2) = 1 := by decide
    unfold PrivateKey.resigning_key PrivateKey.designated_key PrivateKey.public_key
      G1.smul G1.generator
    dsimp only
    rw [h6]
    simp)

/-- C5 counterexample: with `m = 3 > n = 2`, a violation of the
`1 ≤ m ≤ n ≤ 256` precondition, `split` does not abort — it returns a full
vector of `n = 2` fragment keys. -/
theorem split_no_abort_counterexample :
    PrivateKey.split (⟨1, none⟩ : PrivateKey (ZMod 5)) 3 2 (fun _ => 1)
        (fun k => (k : ZMod 5) + 1)
      = [⟨3, some 1⟩, ⟨2, some 2⟩] := by decide

/-- C5 amended: `split` performs no precondition validation at all — for
every `m` and `n`, including `m = 0`, `m > n`, and `n > 256`, it completes
and returns a vector of exactly `n` fragment keys, each carrying a share
identifier. -/
theorem split_no_validation (sk : PrivateKey F) (m n : ℕ)
    (coeff_rand index_rand : ℕ → F) :
    (PrivateKey.split sk m n coeff_rand index_rand).length = n ∧
    ∀ f ∈ PrivateKey.split sk m n coeff_rand index_rand, f.is_fragment = true := by
  constructor
  · unfold PrivateKey.split
    simp
  · intro f hf
    obtain ⟨x, rfl⟩ := split_mem hf
    rfl

/-- C8: `lambda_coeff i indices` equals the product over the entries
`j ≠ i` of `indices` of `j · (j − i)⁻¹`; it is `1` on the empty list, and
each factor's difference `j − i` is non-zero, so no inverse of zero is
taken. -/
theorem lambda_coeff_spec (i : F) (indices : List F) :
    lambda_coeff i indices
        = ((indices.filter (fun j => j ≠ i)).map (fun j => j * (j - i)⁻¹)).prod ∧
    lambda_coeff i ([] : List F) = 1 ∧
    ∀ j ∈ indices.filter (fun j => j ≠ i), j - i ≠ 0 := by
  refine ⟨lambda_coeff_eq_prod i indices, rfl, ?_⟩
  intro j hj
  rw [List.mem_filter] at hj
  have hji : j ≠ i := by simpa using hj.2
  exact sub_ne_zero_of_ne hji

theorem recover_id_none {fragments : List (PrivateKey F)} {res : PrivateKey F}
    (h : PrivateKey.recover fragments = some res) : res.id = none := by
  unfold PrivateKey.recover at h
  by_cases hl : fragments.length ≤ 256
  · rw [if_pos hl] at h
    rcases hc : collect_ids (fragments.map PrivateKey.id) with _ | ids
    · rw [hc] at h
      exact absurd h (by simp)
    · rw [hc] at h
      dsimp only at h
      have hres := (Option.some.injEq _ _).mp h
      rw [← hres]
  · rw [if_neg hl] at h
    exact absurd h (by simp)

theorem assemble_id_none {fragments : List (Signature F)} {res : Signature F}
    (h : Signature.assemble fragments = some res) : res.id = none := by
  unfold Signature.assemble at h
  by_cases hl : fragments.length ≤ 256
  · rw [if_pos hl] at h
    rcases hc : collect_ids (fragments.map Signature.id) with _ | ids
    · rw [hc] at h
      exact absurd h (by simp)
    · rw [hc] at h
      dsimp only at h
      have hres := (Option.some.injEq _ _).mp h
      rw [← hres]
  · rw [if_neg hl] at h
    exact absurd h (by simp)

theorem resigning_key_id_none {sk : PrivateKey F} {pk : PublicKey F}
    {hash_to_scalar : G1 F → F} {rk : PrivateKey F}
    (h : sk.resigning_key pk hash_to_scalar = some rk) : rk.id = none := by
  unfold PrivateKey.resigning_key at h
  dsimp only at h
  split at h
  · exact absurd h (by simp)
  · have hres := (Option.some.injEq _ _).mp h
    rw [← hres]

theorem id_none_not_fragment {sk : PrivateKey F} (h : sk.id = none) :
    sk.is_fragment = false := by
  unfold PrivateKey.is_fragment
  rw [h]

theorem sig_id_none_not_fragment {sig : Signature F} (h : sig.id = none) :
    sig.is_fragment = false := by
  unfold Signature.is_fragment
  rw [h]

/-- C9: the fragment discriminator is exact on every reachable value:
`split` outputs are fragments; `random`, `recover`, `designated_key` and
`resigning_key` outputs are not; `sign` propagates the signing key's
identifier into the signature unchanged (so a fragment key produces a
fragment signature and an ordinary key an ordinary one); `assemble`
outputs and re-signatures under a re-signing key are not fragments. -/
theorem is_fragment_exact :
    (∀ (sk : PrivateKey F) (m n : ℕ) (cr ir : ℕ → F),
      ∀ f ∈ PrivateKey.split sk m n cr ir, f.is_fragment = true) ∧
    (∀ r : F, (PrivateKey.random r).is_fragment = false) ∧
    (∀ (fragments : List (PrivateKey F)) (res : PrivateKey F),
      PrivateKey.recover fragments = some res → res.is_fragment = false) ∧
    (∀ (sk : PrivateKey F) (pk : PublicKey F) (hash_to_scalar : G1 F → F),
      (sk.designated_key pk hash_to_scalar).is_fragment = false) ∧
    (∀ (sk : PrivateKey F) (pk : PublicKey F) (hash_to_scalar : G1 F → F)
        (rk : PrivateKey F),
      sk.resigning_key pk hash_to_scalar = some rk → rk.is_fragment = false) ∧
    (∀ (sk : PrivateKey F) (M : G2 F), (sk.sign M).id = sk.id) ∧
    (∀ (sk : PrivateKey F) (M : G2 F), (sk.sign M).is_fragment = sk.is_fragment) ∧
    (∀ (fragments : List (Signature F)) (res : Signature F),
      Signature.assemble fragments = some res → res.is_fragment = false) ∧
    (∀ (sk : PrivateKey F) (pk : PublicKey F) (hash_to_scalar : G1 F → F)
        (rk : PrivateKey F) (sig : Signature F),
      sk.resigning_key pk hash_to_scalar = some rk →
        (rk.resign sig).is_fragment = false) := by
  refine ⟨?_, ?_, ?_, ?_, ?_, ?_, ?_, ?_, ?_⟩
  · intro sk m n cr ir f hf
    obtain ⟨x, rfl⟩ := split_mem hf
    rfl
  · intro r
    rfl
  · intro fragments res h
    exact id_none_not_fragment (recover_id_none h)
  · intro sk pk hash_to_scalar
    rfl
  · intro sk pk hash_to_scalar rk h
    exact id_none_not_fragment (resigning_key_id_none h)
  · intro sk M
    rfl
  · intro sk M
    rfl
  · intro fragments res h
    exact sig_id_none_not_fragment (assemble_id_none h)
  · intro sk pk hash_to_scalar rk sig h
    have hid : (rk.resign sig).id = rk.id := rfl
    exact sig_id_none_not_fragment (hid.trans (resigning_key_id_none h))

/-- Witness for C9: a one-fragment recovery over `ZMod 5` yields a
non-fragment key. -/
theorem is_fragment_exact_witness :
    (⟨(2 : ZMod 5), none⟩ : PrivateKey (ZMod 5)).is_fragment = false :=
  (is_fragment_exact (F := ZMod 5)).2.2.1 [⟨2, some 1⟩] ⟨2, none⟩ (by decide)

/-- C10: `recover` and `assemble` return a value exactly when every
supplied fragment carries a share identifier and at most 256 fragments are
supplied; under those preconditions every call returns a value — in
particular `recover` of the empty list returns the zero key without
error. -/
theorem recover_isSome_iff (fragments : List (PrivateKey F)) :
    (PrivateKey.recover fragments).isSome
      ↔ (fragments.length ≤ 256 ∧ ∀ f ∈ fragments, f.id.isSome) := by
  unfold PrivateKey.recover
  have hiff := collect_ids_isSome_iff (fragments.map PrivateKey.id)
  by_cases hl : fragments.length ≤ 256
  · rw [if_pos hl]
    rcases hc : collect_ids (fragments.map PrivateKey.id) with _ | ids
    · rw [hc] at hiff
      constructor
      · intro habs
        exact absurd habs (by simp)
      · rintro ⟨-, hK⟩
        exfalso
        have hall : ∀ o ∈ fragments.map PrivateKey.id, o.isSome := by
          intro o ho
          obtain ⟨f, hf, rfl⟩ := List.mem_map.mp ho
          exact hK f hf
        have h2 := hiff.mpr hall
        simp at h2
    · rw [hc] at hiff
      dsimp only
      constructor
      · intro _
        refine ⟨hl, fun f hf => ?_⟩
        exact hiff.mp (by simp) f.id (List.mem_map.mpr ⟨f, hf, rfl⟩)
      · intro _
        simp
  · rw [if_neg hl]
    constructor
    · intro habs
      exact absurd habs (by simp)
    · rintro ⟨h1, -⟩
      exact absurd h1 hl

theorem assemble_isSome_iff (fragments : List (Signature F)) :
    (Signature.assemble fragments).isSome
      ↔ (fragments.length ≤ 256 ∧ ∀ g ∈ fragments, g.id.isSome) := by
  unfold Signature.assemble
  have hiff := collect_ids_isSome_iff (fragments.map Signature.id)
  by_cases hl : fragments.length ≤ 256
  · rw [if_pos hl]
    rcases hc : collect_ids (fragments.map Signature.id) with _ | ids
    · rw [hc] at hiff
      constructor
      · intro habs
        exact absurd habs (by simp)
      · rintro ⟨-, hK⟩
        exfalso
        have hall : ∀ o ∈ fragments.map Signature.id, o.isSome := by
          intro o ho
          obtain ⟨g, hg, rfl⟩ := List.mem_map.mp ho
          exact hK g hg
        have h2 := hiff.mpr hall
        simp at h2
    · rw [hc] at hiff
      dsimp only
      constructor
      · intro _
        refine ⟨hl, fun g hg => ?_⟩
        exact hiff.mp (by simp) g.id (List.mem_map.mpr ⟨g, hg, rfl⟩)
      · intro _
        simp
  · rw [if_neg hl]
    constructor
    · intro habs
      exact absurd habs (by simp)
    · rintro ⟨h1, -⟩
      exact absurd h1 hl

/-- C10: `recover` and `assemble` return a value exactly when every
supplied fragment carries a share identifier and at most 256 fragments are
supplied; under those preconditions every call returns a value — in
particular `recover` of the empty list (below any threshold) returns the
zero key without error. -/
theorem recover_assemble_total :
    (∀ fragments : List (PrivateKey F),
      (PrivateKey.recover fragments).isSome
        ↔ (fragments.length ≤ 256 ∧ ∀ f ∈ fragments, f.id.isSome)) ∧
    (∀ fragments : List (Signature F),
      (Signature.assemble fragments).isSome
        ↔ (fragments.length ≤ 256 ∧ ∀ g ∈ fragments, g.id.isSome)) ∧
    PrivateKey.recover ([] : List (PrivateKey F)) = some ⟨0, none⟩ :=
  ⟨recover_isSome_iff, assemble_isSome_iff, rfl⟩

/-! ### Serialization

The byte-level encodings are stated over `ZMod p` (the canonical value of a
scalar is needed to produce bytes).  `leBytes k v` is the `k`-byte
little-endian encoding of `v`; `fromLEBytes` is its inverse.
`Scalar::to_bytes` of the bls12_381 crate is the canonical 32-byte
little-endian encoding of the value below `p`, and `Scalar::from_bytes`
rejects (panics through `unwrap`) non-canonical values `≥ p`.  The
compressed `G_1` (48-byte) and `G_2` (96-byte) point encodings of the crate
are injective with partial inverses rejecting invalid encodings; in the
exponent representation they are modelled as the padded little-endian
encoding of the exponent's canonical value. -/

def leBytes : ℕ → ℕ → List ℕ
  | 0, _ => []
  | k + 1, v => v % 256 :: leBytes k (v / 256)

def fromLEBytes : List ℕ → ℕ
  | [] => 0
  | b :: bs => b + 256 * fromLEBytes bs

theorem leBytes_length : ∀ (k v : ℕ), (leBytes k v).length = k
  | 0, _ => rfl
  | k + 1, v => by simp [leBytes, leBytes_length k]

theorem fromLEBytes_leBytes : ∀ (k v : ℕ), v < 256 ^ k → fromLEBytes (leBytes k v) = v
  | 0, v, hv => by
      simp only [Nat.pow_zero, Nat.lt_one_iff] at hv
      simp [leBytes, fromLEBytes, hv]
  | k + 1, v, hv => by
      have hdiv : v / 256 < 256 ^ k := by
        rw [Nat.div_lt_iff_lt_mul (by norm_num)]
        calc v < 256 ^ (k + 1) := hv
          _ = 256 ^ k * 256 := by rw [Nat.pow_succ]
      simp only [leBytes, fromLEBytes]
      rw [fromLEBytes_leBytes k (v / 256) hdiv, Nat.mod_add_div]

/-- Models `Scalar::to_bytes`: the canonical 32-byte little-endian encoding
of the scalar's value. -/
def scalar_to_bytes (p : ℕ) (x : ZMod p) : List ℕ := leBytes 32 x.val

/-- Models `Scalar::from_bytes` composed with `unwrap`: decode a 32-byte
little-endian value, rejecting non-canonical inputs (`≥ p`) as `none`. -/
def scalar_from_bytes (p : ℕ) (bytes : List ℕ) : Option (ZMod p) :=
  let v := fromLEBytes bytes
  if v < p then some (v : ZMod p) else none

/-- Models the injective 48-byte compressed `G_1` encoding of the bls12_381
crate, in the exponent representation. -/
def g1_to_compressed (p : ℕ) (P : G1 (ZMod p)) : List ℕ := leBytes 48 P.exp.val

/-- Models `G1Affine::from_compressed` composed with `unwrap` (partial
inverse of the compressed encoding, `none` on invalid input). -/
def g1_from_compressed (p : ℕ) (bytes : List ℕ) : Option (G1 (ZMod p)) :=
  (scalar_from_bytes p bytes).map G1.mk

/-- Models the injective 96-byte compressed `G_2` encoding of the bls12_381
crate, in the exponent representation. -/
def g2_to_compressed (p : ℕ) (P : G2 (ZMod p)) : List ℕ := leBytes 96 P.exp.val

/-- Models `G2Affine::from_compressed` composed with `unwrap`. -/
def g2_from_compressed (p : ℕ) (bytes : List ℕ) : Option (G2 (ZMod p)) :=
  (scalar_from_bytes p bytes).map G2.mk

/-- Embeds `PrivateKey::to_bytes` (`src/rust-nubls/src/keys.rs`): the scalar
bytes, followed by the fragment identifier bytes when present (32 or 64
bytes in total). -/
def PrivateKey.to_bytes (p : ℕ) (sk : PrivateKey (ZMod p)) : List ℕ :=
  scalar_to_bytes p sk.scalar ++
    (match sk.id with
      | some fragment_index => scalar_to_bytes p fragment_index
      | none => [])

/-- Embeds `PrivateKey::from_bytes` (`src/rust-nubls/src/keys.rs`): a
32-byte input is an ordinary key; otherwise the first 64 bytes are
`s_bytes ‖ id_bytes` (the slice panics — `none` — below 64 bytes), each half
decoded with the canonicality check. -/
def PrivateKey.from_bytes (p : ℕ) (bytes : List ℕ) : Option (PrivateKey (ZMod p)) :=
  if bytes.length = 32 then
    (scalar_from_bytes p bytes).map (fun s => ⟨s, none⟩)
  else if 64 ≤ bytes.length then
    match scalar_from_bytes p (bytes.take 32),
        scalar_from_bytes p ((bytes.drop 32).take 32) with
    | some s, some fragment_index => some ⟨s, some fragment_index⟩
    | _, _ => none
  else none

/-- Embeds `PublicKey::to_bytes`: the 48-byte compressed `G_1` encoding. -/
def PublicKey.to_bytes (p : ℕ) (pk : PublicKey (ZMod p)) : List ℕ :=
  g1_to_compressed p pk.point

/-- Embeds `PublicKey::from_bytes`: takes a 48-byte array (the fixed-size
parameter type), `none` on invalid encodings. -/
def PublicKey.from_bytes (p : ℕ) (bytes : List ℕ) : Option (PublicKey (ZMod p)) :=
  if bytes.length = 48 then (g1_from_compressed p bytes).map PublicKey.mk
  else none

/-- Embeds `Signature::to_bytes` (`src/rust-nubls/src/bls.rs`): the 96-byte
compressed point, followed by the fragment identifier bytes when present
(96 or 128 bytes in total). -/
def Signature.to_bytes (p : ℕ) (sig : Signature (ZMod p)) : List ℕ :=
  g2_to_compressed p sig.point ++
    (match sig.id with
      | some fragment_index => scalar_to_bytes p fragment_index
      | none => [])

/-- Embeds `Signature::from_bytes` (`src/rust-nubls/src/bls.rs`): a 96-byte
input is an ordinary signature; otherwise the first 128 bytes are
`σ_bytes ‖ id_bytes` (the slice panics — `none` — below 128 bytes). -/
def Signature.from_bytes (p : ℕ) (bytes : List ℕ) : Option (Signature (ZMod p)) :=
  if bytes.length = 96 then
    (g2_from_compressed p bytes).map (fun pt => ⟨pt, none⟩)
  else if 128 ≤ bytes.length then
    match g2_from_compressed p (bytes.take 96),
        scalar_from_bytes p ((bytes.drop 96).take 32) with
    | some pt, some fragment_index => some ⟨pt, some fragment_index⟩
    | _, _ => none
  else none

theorem pow_256_eq (k : ℕ) : (256 : ℕ) ^ k = 2 ^ (8 * k) := by
  rw [show (256 : ℕ) = 2 ^ 8 by norm_num, ← pow_mul]

theorem scalar_round_trip (p : ℕ) [NeZero p] (hp : p ≤ 2 ^ 256) (x : ZMod p) :
    scalar_from_bytes p (scalar_to_bytes p x) = some x := by
  have hval : x.val < 256 ^ 32 := by
    calc x.val < p := ZMod.val_lt x
      _ ≤ 2 ^ 256 := hp
      _ = 256 ^ 32 := by rw [pow_256_eq]
  unfold scalar_from_bytes scalar_to_bytes
  rw [fromLEBytes_leBytes 32 x.val hval]
  dsimp only
  rw [if_pos (ZMod.val_lt x), ZMod.natCast_zmod_val]

theorem g1_round_trip (p : ℕ) [NeZero p] (hp : p ≤ 2 ^ 256) (P : G1 (ZMod p)) :
    g1_from_compressed p (g1_to_compressed p P) = some P := by
  rcases P with ⟨e⟩
  have hval : e.val < 256 ^ 48 :=
    lt_of_lt_of_le (ZMod.val_lt e) (le_trans hp (by norm_num))
  unfold g1_from_compressed g1_to_compressed scalar_from_bytes
  rw [fromLEBytes_leBytes 48 e.val hval]
  dsimp only
  rw [if_pos (ZMod.val_lt e)]
  rw [ZMod.natCast_zmod_val]
  rfl

theorem g2_round_trip (p : ℕ) [NeZero p] (hp : p ≤ 2 ^ 256) (P : G2 (ZMod p)) :
    g2_from_compressed p (g2_to_compressed p P) = some P := by
  rcases P with ⟨e⟩
  have hval : e.val < 256 ^ 96 :=
    lt_of_lt_of_le (ZMod.val_lt e) (le_trans hp (by norm_num))
  unfold g2_from_compressed g2_to_compressed scalar_from_bytes
  rw [fromLEBytes_leBytes 96 e.val hval]
  dsimp only
  rw [if_pos (ZMod.val_lt e)]
  rw [ZMod.natCast_zmod_val]
  rfl

/-- C6: serialization round-trips for every value type in both forms —
`from_bytes (to_bytes v) = v` for every `PrivateKey`, `PublicKey` and
`Signature`, fragment or ordinary — and the serialized length is 32 bytes
for an ordinary private key, 64 for a fragment one (`s_bytes ‖ id_bytes`),
48 for a public key, 96 for an ordinary signature and 128 for a fragment
one (`σ_bytes ‖ id_bytes`). -/
theorem serialization_round_trip (p : ℕ) [NeZero p] (hp : p ≤ 2 ^ 256) :
    (∀ sk : PrivateKey (ZMod p),
      PrivateKey.from_bytes p (PrivateKey.to_bytes p sk) = some sk ∧
      (PrivateKey.to_bytes p sk).length = (if sk.id.isSome then 64 else 32)) ∧
    (∀ pk : PublicKey (ZMod p),
      PublicKey.from_bytes p (PublicKey.to_bytes p pk) = some pk ∧
      (PublicKey.to_bytes p pk).length = 48) ∧
    (∀ sig : Signature (ZMod p),
      Signature.from_bytes p (Signature.to_bytes p sig) = some sig ∧
      (Signature.to_bytes p sig).length = (if sig.id.isSome then 128 else 96)) := by
  refine ⟨?_, ?_, ?_⟩
  · rintro ⟨s, _ | i⟩
    · have hb : PrivateKey.to_bytes p ⟨s, none⟩ = scalar_to_bytes p s := by
        unfold PrivateKey.to_bytes
        simp
      have hlen : (scalar_to_bytes p s).length = 32 := leBytes_length 32 _
      constructor
      · rw [hb]
        unfold PrivateKey.from_bytes
        rw [if_pos hlen, scalar_round_trip p hp s]
        rfl
      · rw [hb, hlen]
        rfl
    · have hb : PrivateKey.to_bytes p ⟨s, some i⟩
          = scalar_to_bytes p s ++ scalar_to_bytes p i := rfl
      have hA : (scalar_to_bytes p s).length = 32 := leBytes_length 32 _
      have hB : (scalar_to_bytes p i).length = 32 := leBytes_length 32 _
      have hlen : (PrivateKey.to_bytes p ⟨s, some i⟩).length = 64 := by
        rw [hb, List.length_append, hA, hB]
      have htake : (scalar_to_bytes p s ++ scalar_to_bytes p i).take 32
          = scalar_to_bytes p s := by
        rw [← hA, List.take_left]
      have hdrop : ((scalar_to_bytes p s ++ scalar_to_bytes p i).drop 32).take 32
          = scalar_to_bytes p i := by
        nth_rewrite 2 [← hA]
        rw [List.drop_left, ← hB, List.take_length]
      constructor
      · unfold PrivateKey.from_bytes
        rw [hlen]
        rw [if_neg (by norm_num), if_pos (by norm_num)]
        rw [hb, htake, hdrop, scalar_round_trip p hp s, scalar_round_trip p hp i]
      · rw [hlen]
        rfl
  · rintro ⟨P⟩
    have hlen : (PublicKey.to_bytes p ⟨P⟩).length = 48 := leBytes_length 48 _
    constructor
    · unfold PublicKey.from_bytes
      rw [hlen, if_pos rfl]
      have : PublicKey.to_bytes p ⟨P⟩ = g1_to_compressed p P := rfl
      rw [this, g1_round_trip p hp P]
      rfl
    · exact hlen
  · rintro ⟨P, _ | i⟩
    · have hb : Signature.to_bytes p ⟨P, none⟩ = g2_to_compressed p P := by
        unfold Signature.to_bytes
        simp
      have hlen : (g2_to_compressed p P).length = 96 := leBytes_length 96 _
      constructor
      · rw [hb]
        unfold Signature.from_bytes
        rw [if_pos hlen, g2_round_trip p hp P]
        rfl
      · rw [hb, hlen]
        rfl
    · have hb : Signature.to_bytes p ⟨P, some i⟩
          = g2_to_compressed p P ++ scalar_to_bytes p i := rfl
      have hA : (g2_to_compressed p P).length = 96 := leBytes_length 96 _
      have hB : (scalar_to_bytes p i).length = 32 := leBytes_length 32 _
      have hlen : (Signature.to_bytes p ⟨P, some i⟩).length = 128 := by
        rw [hb, List.length_append, hA, hB]
      have htake : (g2_to_compressed p P ++ scalar_to_bytes p i).take 96
          = g2_to_compressed p P := by
        rw [← hA, List.take_left]
      have hdrop : ((g2_to_compressed p P ++ scalar_to_bytes p i).drop 96).take 32
          = scalar_to_bytes p i := by
        rw [← hA, List.drop_left, ← hB, List.take_length]
      constructor
      · unfold Signature.from_bytes
        rw [hlen]
        rw [if_neg (by norm_num), if_pos (by norm_num)]
        rw [hb, htake, hdrop, g2_round_trip p hp P, scalar_round_trip p hp i]
      · rw [hlen]
        rfl

/-- Witness for C6 over `ZMod 5`: a fragment private key and an ordinary
signature round-trip, with lengths 64 and 96. -/
theorem serialization_round_trip_witness :
    (PrivateKey.from_bytes 5 (PrivateKey.to_bytes 5
        (⟨2, some 3⟩ : PrivateKey (ZMod 5))) = some ⟨2, some 3⟩) ∧
    ((Signature.to_bytes 5 (⟨⟨4⟩, none⟩ : Signature (ZMod 5))).length = 96) :=
  ⟨((serialization_round_trip 5 (by norm_num)).1 ⟨2, some 3⟩).1,
    (((serialization_round_trip 5 (by norm_num)).2.2 ⟨⟨4⟩, none⟩).2).trans (by decide)⟩

end NuBLS
